import Mathlib

/-!
Verification of the DNA translation and motif finder core
(`dna_translation_motif_finder.py`): sequence normalization,
reverse complement, frame-based codon translation, and IUPAC motif
search with overlapping matches.

Sequences are modelled as `List Char`; fallible operations return
`Except String`, carrying the exact error message the code raises.
-/

namespace DnaTool

/-- The 64-entry codon table `CODON_TABLE` mapping each codon over
A/C/G/T to a one-letter amino acid or the stop marker. -/
def CODON_TABLE : List (String × Char) :=
  [("TTT", 'F'), ("TTC", 'F'), ("TTA", 'L'), ("TTG", 'L'),
   ("CTT", 'L'), ("CTC", 'L'), ("CTA", 'L'), ("CTG", 'L'),
   ("ATT", 'I'), ("ATC", 'I'), ("ATA", 'I'), ("ATG", 'M'),
   ("GTT", 'V'), ("GTC", 'V'), ("GTA", 'V'), ("GTG", 'V'),
   ("TCT", 'S'), ("TCC", 'S'), ("TCA", 'S'), ("TCG", 'S'),
   ("CCT", 'P'), ("CCC", 'P'), ("CCA", 'P'), ("CCG", 'P'),
   ("ACT", 'T'), ("ACC", 'T'), ("ACA", 'T'), ("ACG", 'T'),
   ("GCT", 'A'), ("GCC", 'A'), ("GCA", 'A'), ("GCG", 'A'),
   ("TAT", 'Y'), ("TAC", 'Y'), ("TAA", '*'), ("TAG", '*'),
   ("CAT", 'H'), ("CAC", 'H'), ("CAA", 'Q'), ("CAG", 'Q'),
   ("AAT", 'N'), ("AAC", 'N'), ("AAA", 'K'), ("AAG", 'K'),
   ("GAT", 'D'), ("GAC", 'D'), ("GAA", 'E'), ("GAG", 'E'),
   ("TGT", 'C'), ("TGC", 'C'), ("TGA", '*'), ("TGG", 'W'),
   ("CGT", 'R'), ("CGC", 'R'), ("CGA", 'R'), ("CGG", 'R'),
   ("AGT", 'S'), ("AGC", 'S'), ("AGA", 'R'), ("AGG", 'R'),
   ("GGT", 'G'), ("GGC", 'G'), ("GGA", 'G'), ("GGG", 'G')]

/-- The IUPAC ambiguity alphabet `IUPAC_TO_REGEX`: each of the 15
symbols maps to the list of concrete bases its regex class matches. -/
def IUPAC_TO_REGEX : List (Char × List Char) :=
  [('A', ['A']), ('C', ['C']), ('G', ['G']), ('T', ['T']),
   ('R', ['A', 'G']), ('Y', ['C', 'T']), ('S', ['G', 'C']), ('W', ['A', 'T']),
   ('K', ['G', 'T']), ('M', ['A', 'C']), ('B', ['C', 'G', 'T']),
   ('D', ['A', 'G', 'T']), ('H', ['A', 'C', 'T']), ('V', ['A', 'C', 'G']),
   ('N', ['A', 'C', 'G', 'T'])]

/-- The valid-base test of `normalize_dna`: membership in the set
written `{"A", "C", "G", "T", "N"}` in the source. -/
def validBase (c : Char) : Bool :=
  c = 'A' || c = 'C' || c = 'G' || c = 'T' || c = 'N'

/-- The cleaning stage of `normalize_dna`:
`"".join(sequence.split()).upper()` — drop every whitespace
character, then uppercase. -/
def cleanDna (s : List Char) : List Char :=
  (s.filter (fun c => !c.isWhitespace)).map Char.toUpper

/-- The offender list of `normalize_dna`:
`sorted({base for base in sequence if base not in valid})` — the
distinct invalid characters, in ascending order. -/
def invalidBases (s : List Char) : List Char :=
  (s.filter (fun c => !validBase c)).dedup.insertionSort (· ≤ ·)

/-- Embedding of `normalize_dna`: strip whitespace, uppercase, and fail when any
character outside A/C/G/T/N remains, listing the distinct offenders
sorted and comma-joined. -/
def normalize_dna (s : List Char) : Except String (List Char) :=
  if (invalidBases (cleanDna s)).isEmpty then .ok (cleanDna s)
  else .error ("DNA contains invalid bases: " ++
    String.intercalate ", "
      ((invalidBases (cleanDna s)).map (fun c => String.mk [c])))

/-- The base-complement map built by `str.maketrans("ACGTN", "TGCAN")`;
`str.translate` leaves characters outside the table unchanged. -/
def complementBase (c : Char) : Char :=
  if c = 'A' then 'T'
  else if c = 'C' then 'G'
  else if c = 'G' then 'C'
  else if c = 'T' then 'A'
  else if c = 'N' then 'N'
  else c

/-- Embedding of `reverse_complement`: complement each base, then reverse the whole
sequence (`sequence.translate(table)[::-1]`). -/
def reverse_complement (s : List Char) : List Char :=
  (s.map complementBase).reverse

/-- The per-codon lookup `CODON_TABLE.get(codon, "X")`: the table
entry for the codon, or the sentinel X when the codon is not a key. -/
def aminoFor (codon : List Char) : Char :=
  (CODON_TABLE.lookup (String.mk codon)).getD 'X'

/-- The translation loop of `translate_dna`:
`for i in range(start, len(sequence) - 2, 3)` consumes consecutive
3-character codons and stops once fewer than 3 characters remain;
with `stop_at_stop` it breaks before appending the first stop. -/
def translateCodons (s : List Char) (stopAtStop : Bool) : List Char :=
  match s with
  | c1 :: c2 :: c3 :: rest =>
    let aa := aminoFor [c1, c2, c3]
    if stopAtStop && aa = '*' then []
    else aa :: translateCodons rest stopAtStop
  | _ => []

/-- Embedding of `translate_dna`: reject a frame outside 1..3 first, then
re-normalize the sequence, then translate the frame. -/
def translate_dna (s : List Char) (frame : Int) (stopAtStop : Bool) :
    Except String (List Char) :=
  if frame = 1 ∨ frame = 2 ∨ frame = 3 then
    match normalize_dna s with
    | .error e => .error e
    | .ok seq => .ok (translateCodons (seq.drop (frame - 1).toNat) stopAtStop)
  else .error "Frame must be 1, 2, or 3."

/-- Python `str.strip`: remove leading and trailing whitespace. -/
def stripEnds (s : List Char) : List Char :=
  ((s.dropWhile Char.isWhitespace).reverse.dropWhile Char.isWhitespace).reverse

/-- The body of `motif_to_regex`'s join: translate each motif symbol
through `IUPAC_TO_REGEX`, failing at the first unsupported symbol with
the `KeyError`-derived message. -/
def motifClasses : List Char → Except String (List (List Char))
  | [] => .ok []
  | c :: rest =>
    match IUPAC_TO_REGEX.lookup c with
    | none => .error ("Unsupported motif symbol: " ++ String.mk [c])
    | some cls => (motifClasses rest).map (fun l => cls :: l)

/-- Embedding of `motif_to_regex`: uppercase and strip the motif, reject an empty
result, then expand each symbol into its concrete-base class. -/
def motif_to_regex (motif : List Char) : Except String (List (List Char)) :=
  if (stripEnds (motif.map Char.toUpper)).isEmpty then
    .error "Motif cannot be empty."
  else motifClasses (stripEnds (motif.map Char.toUpper))

/-- Whether the expanded pattern matches at the head of `s`: each
class in turn must match the corresponding character. This is the
semantics of the concatenated character-class regex. -/
def matchesAt (classes : List (List Char)) (s : List Char) : Bool :=
  match classes, s with
  | [], _ => true
  | _ :: _, [] => false
  | cls :: cr, c :: sr => cls.contains c && matchesAt cr sr

/-- The scan performed by `pattern.finditer` on the zero-width
lookahead `(?=(regex))`: every position of the sequence is tried in
order, and each position where the pattern matches is reported, so
overlapping occurrences are all found. -/
def scanPositions (classes : List (List Char)) : List Char → Nat → List Nat
  | [], pos => if matchesAt classes [] then [pos] else []
  | c :: rest, pos =>
    (if matchesAt classes (c :: rest) then [pos] else []) ++
      scanPositions classes rest (pos + 1)

/-- Embedding of `find_motifs`: re-normalize the sequence, expand the motif, and
return every match start position of the lookahead scan. -/
def find_motifs (s m : List Char) : Except String (List Nat) := do
  let seq ← normalize_dna s
  let classes ← motif_to_regex m
  return scanPositions classes seq 0

/-! ### Basic facts about normalization -/

theorem validBase_cases {c : Char} (h : validBase c = true) :
    c = 'A' ∨ c = 'C' ∨ c = 'G' ∨ c = 'T' ∨ c = 'N' := by
  have h5 := h
  simp only [validBase, Bool.or_eq_true, decide_eq_true_eq] at h5
  tauto

theorem validBase_fix {c : Char} (h : validBase c = true) :
    c.isWhitespace = false ∧ c.toUpper = c := by
  rcases validBase_cases h with rfl | rfl | rfl | rfl | rfl <;> exact ⟨by decide, by decide⟩

theorem cleanDna_of_valid : ∀ {s : List Char}, (∀ c ∈ s, validBase c) → cleanDna s = s
  | [], _ => rfl
  | c :: t, h => by
    have hc := validBase_fix (h c (List.mem_cons_self c t))
    have ht := cleanDna_of_valid (fun x hx => h x (List.mem_cons_of_mem c hx))
    simp only [cleanDna, List.filter_cons, hc.1] at *
    simp [hc.2, ht]

theorem mem_invalidBases {t : List Char} {c : Char} :
    c ∈ invalidBases t ↔ c ∈ t ∧ ¬validBase c = true := by
  unfold invalidBases
  rw [(List.perm_insertionSort _ _).mem_iff, List.mem_dedup, List.mem_filter]
  simp

theorem invalidBases_eq_nil_iff {t : List Char} :
    invalidBases t = [] ↔ ∀ c ∈ t, validBase c = true := by
  constructor
  · intro h c hc
    by_contra hv
    have hmem : c ∈ invalidBases t := mem_invalidBases.2 ⟨hc, hv⟩
    simp [h] at hmem
  · intro h
    unfold invalidBases
    have hf : t.filter (fun c => !validBase c) = [] := by
      rw [List.filter_eq_nil_iff]; intro a ha; simp [h a ha]
    rw [hf]; rfl

theorem normalize_dna_of_valid {s : List Char} (h : ∀ c ∈ s, validBase c) :
    normalize_dna s = .ok s := by
  unfold normalize_dna
  rw [cleanDna_of_valid h, invalidBases_eq_nil_iff.2 h]
  rfl

theorem normalize_dna_ok_elim {s t : List Char} (h : normalize_dna s = .ok t) :
    t = cleanDna s ∧ ∀ c ∈ t, validBase c := by
  unfold normalize_dna at h
  split at h
  · rename_i hin
    cases h
    exact ⟨rfl, invalidBases_eq_nil_iff.mp (List.isEmpty_iff.mp hin)⟩
  · cases h

/-! ### C5, C6 -/

theorem complementBase_involutive (c : Char) :
    complementBase (complementBase c) = c := by
  by_cases hA : c = 'A'; · subst hA; rfl
  by_cases hC : c = 'C'; · subst hC; rfl
  by_cases hG : c = 'G'; · subst hG; rfl
  by_cases hT : c = 'T'; · subst hT; rfl
  by_cases hN : c = 'N'; · subst hN; rfl
  have h1 : complementBase c = c := by
    unfold complementBase; simp [hA, hC, hG, hT, hN]
  rw [h1, h1]

/-- C5: `reverse_complement` is an involution on normalized sequences —
complementing each base position-wise (A↔T, C↔G, N↔N) and reversing
the whole string twice gives the original string back. -/
theorem reverse_complement_involution (s : List Char)
    (h : ∀ c ∈ s, validBase c) :
    reverse_complement (reverse_complement s) = s := by
  unfold reverse_complement
  rw [List.map_reverse, List.reverse_reverse, List.map_map]
  have hid : complementBase ∘ complementBase = id :=
    funext complementBase_involutive
  rw [hid, List.map_id]

theorem reverse_complement_involution_witness :
    (∀ c ∈ "ACGTN".toList, validBase c) ∧
      reverse_complement (reverse_complement "ACGTN".toList) = "ACGTN".toList :=
  ⟨by decide, reverse_complement_involution "ACGTN".toList (by decide)⟩

/-- C6: normalization is idempotent — whenever `normalize_dna` succeeds,
running it again on its own output returns that output unchanged. -/
theorem normalize_dna_idempotent {s t : List Char}
    (h : normalize_dna s = .ok t) : normalize_dna t = .ok t :=
  normalize_dna_of_valid (normalize_dna_ok_elim h).2

theorem normalize_dna_idempotent_witness :
    normalize_dna "ACGT".toList = .ok "ACGT".toList :=
  @normalize_dna_idempotent ("ac gt".toList) ("ACGT".toList) rfl

/-! ### Translation: C2, C3, C4 -/

theorem translate_dna_ok {s : List Char} {f : Int}
    (hs : ∀ c ∈ s, validBase c) (hf : f = 1 ∨ f = 2 ∨ f = 3) (st : Bool) :
    translate_dna s f st =
      .ok (translateCodons (s.drop (f - 1).toNat) st) := by
  unfold translate_dna
  rw [if_pos hf, normalize_dna_of_valid hs]

theorem translateCodons_false_length :
    ∀ s : List Char, (translateCodons s false).length = s.length / 3
  | [] => rfl
  | [a] => by
    have h0 : translateCodons [a] false = [] := rfl
    rw [h0]; simp
  | [a, b] => by
    have h0 : translateCodons [a, b] false = [] := rfl
    rw [h0]; simp
  | c1 :: c2 :: c3 :: rest => by
    have ih := translateCodons_false_length rest
    simp only [translateCodons, Bool.false_and, Bool.false_eq_true, if_false,
      List.length_cons]
    omega

/-- C2: with `stopAtStop` false and a valid frame `f`, translation of a
normalized sequence of length `L` yields exactly `(L - (f-1)) / 3` amino
acids — consecutive non-overlapping codons from offset `f-1`, with the
1–2 leftover characters dropped. -/
theorem translate_dna_length (s : List Char) (f : Int)
    (hs : ∀ c ∈ s, validBase c) (hf : f = 1 ∨ f = 2 ∨ f = 3) :
    ∃ out, translate_dna s f false = .ok out ∧
      out.length = (s.length - (f - 1).toNat) / 3 := by
  refine ⟨translateCodons (s.drop (f - 1).toNat) false, translate_dna_ok hs hf false, ?_⟩
  rw [translateCodons_false_length, List.length_drop]

theorem translate_dna_length_witness :
    ∃ out, translate_dna "ATGAAAT".toList 2 false = .ok out ∧
      out.length = ("ATGAAAT".toList.length - ((2 : Int) - 1).toNat) / 3 :=
  translate_dna_length "ATGAAAT".toList 2 (by decide) (Or.inr (Or.inl rfl))

theorem translateCodons_true_eq :
    ∀ s : List Char, translateCodons s true =
      (translateCodons s false).takeWhile (fun c => c != '*')
  | [] => rfl
  | [_] => rfl
  | [_, _] => rfl
  | c1 :: c2 :: c3 :: rest => by
    have ih := translateCodons_true_eq rest
    by_cases h : aminoFor [c1, c2, c3] = '*'
    · simp [translateCodons, h, List.takeWhile_cons]
    · simp [translateCodons, h, List.takeWhile_cons, ih]

/-- C3: with `stopAtStop` true, translation is the `stopAtStop = false`
translation cut off right before the first stop marker: no `*` appears
in the output and nothing after the first stop codon contributes;
in particular `translate_dna "ATGAAATAG" 1 true = "MK"`. -/
theorem translate_dna_stopAtStop :
    (∀ (s : List Char) (f : Int), (∀ c ∈ s, validBase c) →
      f = 1 ∨ f = 2 ∨ f = 3 →
      ∃ full stopped,
        translate_dna s f false = .ok full ∧
        translate_dna s f true = .ok stopped ∧
        stopped = full.takeWhile (fun c => c != '*') ∧
        '*' ∉ stopped) ∧
    translate_dna "ATGAAATAG".toList 1 true = .ok "MK".toList := by
  refine ⟨?_, rfl⟩
  intro s f hs hf
  refine ⟨translateCodons (s.drop (f - 1).toNat) false,
    translateCodons (s.drop (f - 1).toNat) true,
    translate_dna_ok hs hf false, translate_dna_ok hs hf true,
    translateCodons_true_eq _, ?_⟩
  intro hmem
  rw [translateCodons_true_eq] at hmem
  have := List.mem_takeWhile_imp hmem
  simp at this

theorem translate_dna_stopAtStop_witness :
    ∃ full stopped,
      translate_dna "ATGAAATAG".toList 1 false = .ok full ∧
      translate_dna "ATGAAATAG".toList 1 true = .ok stopped ∧
      stopped = full.takeWhile (fun c => c != '*') ∧
      '*' ∉ stopped :=
  translate_dna_stopAtStop.1 "ATGAAATAG".toList 1 (by decide) (Or.inl rfl)

theorem codon_keys_acgt :
    ∀ p ∈ CODON_TABLE, ∀ c ∈ p.1.toList,
      c = 'A' ∨ c = 'C' ∨ c = 'G' ∨ c = 'T' := by decide

theorem codon_found :
    ∀ a ∈ (['A', 'C', 'G', 'T'] : List Char),
    ∀ b ∈ (['A', 'C', 'G', 'T'] : List Char),
    ∀ c ∈ (['A', 'C', 'G', 'T'] : List Char),
      (CODON_TABLE.lookup (String.mk [a, b, c])).isSome := by decide

theorem lookup_eq_none_of_forall_ne {l : List (String × Char)} {k : String}
    (h : ∀ p ∈ l, p.1 ≠ k) : l.lookup k = none := by
  induction l with
  | nil => rfl
  | cons p t ih =>
    obtain ⟨a, b⟩ := p
    have hne : (k == a) = false := by
      have ha := h (a, b) (List.mem_cons_self _ t)
      exact beq_eq_false_iff_ne.2 (fun he => ha he.symm)
    simp only [List.lookup, hne]
    exact ih (fun q hq => h q (List.mem_cons_of_mem _ hq))

theorem aminoFor_eq_X_of_invalid {codon : List Char}
    (h : ∃ c ∈ codon, ¬(c = 'A' ∨ c = 'C' ∨ c = 'G' ∨ c = 'T')) :
    aminoFor codon = 'X' := by
  obtain ⟨c, hc, hbad⟩ := h
  have hnone : CODON_TABLE.lookup (String.mk codon) = none := by
    apply lookup_eq_none_of_forall_ne
    intro p hp heq
    have hmem : c ∈ p.1.toList := by rw [heq]; exact hc
    exact hbad (codon_keys_acgt p hp c hmem)
  simp [aminoFor, hnone]

/-- C4: every codon over A/C/G/T is found in the 64-entry codon table and
translated to that entry, while any codon containing a character outside
A/C/G/T (such as N) maps to the sentinel X; in particular
`translate_dna "NNNATG" 1 false = "XM"`. -/
theorem codon_table_spec :
    (∀ a ∈ (['A', 'C', 'G', 'T'] : List Char),
     ∀ b ∈ (['A', 'C', 'G', 'T'] : List Char),
     ∀ c ∈ (['A', 'C', 'G', 'T'] : List Char),
      ∃ v, CODON_TABLE.lookup (String.mk [a, b, c]) = some v ∧
        aminoFor [a, b, c] = v) ∧
    (∀ codon : List Char,
      (∃ c ∈ codon, ¬(c = 'A' ∨ c = 'C' ∨ c = 'G' ∨ c = 'T')) →
      aminoFor codon = 'X') ∧
    translate_dna "NNNATG".toList 1 false = .ok "XM".toList := by
  refine ⟨?_, fun codon h => aminoFor_eq_X_of_invalid h, rfl⟩
  intro a ha b hb c hc
  obtain ⟨v, hv⟩ := Option.isSome_iff_exists.mp (codon_found a ha b hb c hc)
  exact ⟨v, hv, by simp [aminoFor, hv]⟩

theorem codon_table_spec_witness :
    ∃ v, CODON_TABLE.lookup (String.mk ['A', 'T', 'G']) = some v ∧
      aminoFor ['A', 'T', 'G'] = v :=
  codon_table_spec.1 'A' (by decide) 'T' (by decide) 'G' (by decide)

/-! ### Motif matching: C1, C9, C10 -/

theorem scanPositions_sub {classes : List (List Char)} :
    ∀ (s : List Char) (pos p : Nat), p ∈ scanPositions classes s pos →
      pos ≤ p ∧ p - pos ≤ s.length ∧
        matchesAt classes (s.drop (p - pos)) = true := by
  intro s
  induction s with
  | nil =>
    intro pos p h
    simp only [scanPositions] at h
    split at h
    · rename_i hm
      rcases List.mem_singleton.mp h with rfl
      exact ⟨Nat.le_refl _, by simp, by simpa using hm⟩
    · cases h
  | cons c rest ih =>
    intro pos p h
    rcases List.mem_append.mp h with h1 | h2
    · split at h1
      · rename_i hm
        rcases List.mem_singleton.mp h1 with rfl
        exact ⟨Nat.le_refl _, by simp, by simpa using hm⟩
      · cases h1
    · obtain ⟨hle, hlen, hm⟩ := ih (pos + 1) p h2
      refine ⟨by omega, by simp; omega, ?_⟩
      have hk : p - pos = (p - (pos + 1)) + 1 := by omega
      rw [hk]
      exact hm

theorem scanPositions_mem {classes : List (List Char)} :
    ∀ (s : List Char) (pos k : Nat), k ≤ s.length →
      matchesAt classes (s.drop k) = true →
      pos + k ∈ scanPositions classes s pos := by
  intro s
  induction s with
  | nil =>
    intro pos k hk hm
    have hk0 : k = 0 := by simpa using hk
    subst hk0
    simp only [scanPositions]
    rw [if_pos (by simpa using hm)]
    simp
  | cons c rest ih =>
    intro pos k hk hm
    match k with
    | 0 =>
      simp only [scanPositions]
      rw [if_pos (by simpa using hm)]
      simp
    | k' + 1 =>
      have h2 := ih (pos + 1) k' (by simpa using hk) (by simpa using hm)
      simp only [scanPositions]
      refine List.mem_append.mpr (Or.inr ?_)
      have : pos + (k' + 1) = pos + 1 + k' := by omega
      rw [this]
      exact h2

theorem scanPositions_ge {classes : List (List Char)} :
    ∀ (s : List Char) (pos q : Nat), q ∈ scanPositions classes s pos → pos ≤ q :=
  fun s pos q h => (scanPositions_sub s pos q h).1

theorem scanPositions_sorted {classes : List (List Char)} :
    ∀ (s : List Char) (pos : Nat),
      List.Pairwise (· < ·) (scanPositions classes s pos) := by
  intro s
  induction s with
  | nil =>
    intro pos
    simp only [scanPositions]
    split <;> simp
  | cons c rest ih =>
    intro pos
    simp only [scanPositions]
    rw [List.pairwise_append]
    refine ⟨by split <;> simp, ih (pos + 1), ?_⟩
    intro a ha b hb
    have hb1 : pos + 1 ≤ b := scanPositions_ge rest (pos + 1) b hb
    have ha1 : a = pos := by split at ha <;> simpa using ha
    omega

theorem matchesAt_nil_false {classes : List (List Char)} (h : classes ≠ []) :
    matchesAt classes [] = false := by
  cases classes with
  | nil => exact absurd rfl h
  | cons a b => rfl

theorem matchesAt_length : ∀ {classes : List (List Char)} {t : List Char},
    matchesAt classes t = true → classes.length ≤ t.length
  | [], _, _ => by simp
  | _ :: _, [], h => by cases h
  | cls :: cr, c :: sr, h => by
    simp only [matchesAt, Bool.and_eq_true] at h
    have := matchesAt_length h.2
    simp only [List.length_cons]
    omega

theorem motifClasses_length : ∀ {l : List Char} {cls : List (List Char)},
    motifClasses l = .ok cls → cls.length = l.length
  | [], cls, h => by cases h; rfl
  | c :: rest, cls, h => by
    simp only [motifClasses] at h
    cases hc : IUPAC_TO_REGEX.lookup c with
    | none => rw [hc] at h; cases h
    | some v =>
      rw [hc] at h
      cases hrest : motifClasses rest with
      | error e => rw [hrest] at h; simp [Except.map] at h
      | ok tl =>
        rw [hrest] at h
        simp only [Except.map] at h
        cases h
        simp [motifClasses_length hrest]

theorem motif_to_regex_ok_elim {m : List Char} {cls : List (List Char)}
    (h : motif_to_regex m = .ok cls) :
    stripEnds (m.map Char.toUpper) ≠ [] ∧
      motifClasses (stripEnds (m.map Char.toUpper)) = .ok cls := by
  unfold motif_to_regex at h
  split at h
  · cases h
  · rename_i hne
    refine ⟨?_, h⟩
    intro hcon
    rw [hcon] at hne
    simp at hne

theorem motif_to_regex_ok_ne_nil {m : List Char} {cls : List (List Char)}
    (h : motif_to_regex m = .ok cls) : cls ≠ [] := by
  obtain ⟨hne, hcl⟩ := motif_to_regex_ok_elim h
  intro hc
  apply hne
  have := motifClasses_length hcl
  rw [hc] at this
  exact List.length_eq_zero.mp this.symm

theorem find_motifs_ok {s m : List Char} {classes : List (List Char)}
    (hs : ∀ c ∈ s, validBase c) (hm : motif_to_regex m = .ok classes) :
    find_motifs s m = .ok (scanPositions classes s 0) := by
  unfold find_motifs
  rw [normalize_dna_of_valid hs, hm]
  rfl

/-- C1: for a normalized sequence and a valid motif, `find_motifs`
returns exactly the start positions where the expanded pattern matches
(overlapping occurrences included), in strictly increasing order; in
particular `find_motifs "AAAA" "AA" = [0, 1, 2]`. -/
theorem find_motifs_spec :
    (∀ (s m : List Char) (classes : List (List Char)),
      (∀ c ∈ s, validBase c) → motif_to_regex m = .ok classes →
      ∃ ps, find_motifs s m = .ok ps ∧
        (∀ p, p ∈ ps ↔ matchesAt classes (s.drop p) = true) ∧
        List.Pairwise (· < ·) ps) ∧
    find_motifs "AAAA".toList "AA".toList = .ok [0, 1, 2] := by
  refine ⟨?_, rfl⟩
  intro s m classes hs hm
  refine ⟨scanPositions classes s 0, find_motifs_ok hs hm, ?_,
    scanPositions_sorted s 0⟩
  intro p
  constructor
  · intro hp
    have h := scanPositions_sub s 0 p hp
    simpa using h.2.2
  · intro hmatch
    have hple : p ≤ s.length := by
      by_contra hgt
      rw [List.drop_eq_nil_of_le (by omega)] at hmatch
      rw [matchesAt_nil_false (motif_to_regex_ok_ne_nil hm)] at hmatch
      cases hmatch
    have := scanPositions_mem s 0 p hple hmatch
    simpa using this

theorem find_motifs_spec_witness :
    ∃ ps, find_motifs "ACGT".toList "N".toList = .ok ps ∧
      (∀ p, p ∈ ps ↔
        matchesAt [['A', 'C', 'G', 'T']] ("ACGT".toList.drop p) = true) ∧
      List.Pairwise (· < ·) ps :=
  find_motifs_spec.1 "ACGT".toList "N".toList [['A', 'C', 'G', 'T']]
    (by decide) rfl

theorem motifClasses_error_of_bad :
    ∀ (l : List Char), (∃ c ∈ l, IUPAC_TO_REGEX.lookup c = none) →
      ∃ c, c ∈ l ∧ IUPAC_TO_REGEX.lookup c = none ∧
        motifClasses l = .error ("Unsupported motif symbol: " ++ String.mk [c])
  | [], h => by simp at h
  | c :: rest, h => by
    cases hc : IUPAC_TO_REGEX.lookup c with
    | none =>
      refine ⟨c, List.mem_cons_self _ _, hc, ?_⟩
      simp only [motifClasses, hc]
    | some cls =>
      have hbad : ∃ x ∈ rest, IUPAC_TO_REGEX.lookup x = none := by
        obtain ⟨x, hx, hxn⟩ := h
        rcases List.mem_cons.mp hx with rfl | hxr
        · rw [hc] at hxn; cases hxn
        · exact ⟨x, hxr, hxn⟩
      obtain ⟨x, hxr, hxn, he⟩ := motifClasses_error_of_bad rest hbad
      refine ⟨x, List.mem_cons_of_mem _ hxr, hxn, ?_⟩
      simp only [motifClasses, hc, he, Except.map]

theorem find_motifs_err {s m : List Char} {e : String}
    (hs : ∀ c ∈ s, validBase c) (hm : motif_to_regex m = .error e) :
    find_motifs s m = .error e := by
  unfold find_motifs
  rw [normalize_dna_of_valid hs, hm]
  rfl

/-- C9: on a normalized sequence, `find_motifs` fails with the
empty-motif error when the motif is empty after uppercasing and
trimming, and with the unsupported-symbol error naming an offending
character when the trimmed motif contains a character outside the
15-letter IUPAC alphabet. -/
theorem find_motifs_motif_errors :
    ∀ (s m : List Char), (∀ c ∈ s, validBase c) →
      (stripEnds (m.map Char.toUpper) = [] →
        find_motifs s m = .error "Motif cannot be empty.") ∧
      ((∃ c ∈ stripEnds (m.map Char.toUpper),
          IUPAC_TO_REGEX.lookup c = none) →
        ∃ c, c ∈ stripEnds (m.map Char.toUpper) ∧
          IUPAC_TO_REGEX.lookup c = none ∧
          find_motifs s m =
            .error ("Unsupported motif symbol: " ++ String.mk [c])) := by
  intro s m hs
  constructor
  · intro hempty
    apply find_motifs_err hs
    unfold motif_to_regex
    rw [hempty]
    rfl
  · intro hbad
    obtain ⟨c, hcm, hcn, he⟩ := motifClasses_error_of_bad _ hbad
    refine ⟨c, hcm, hcn, ?_⟩
    apply find_motifs_err hs
    have hne : ¬((stripEnds (m.map Char.toUpper)).isEmpty = true) := by
      rw [List.isEmpty_iff]
      intro hnil
      rw [hnil] at hcm
      cases hcm
    unfold motif_to_regex
    rw [if_neg hne]
    exact he

theorem find_motifs_motif_errors_witness :
    find_motifs "ACGT".toList "".toList = .error "Motif cannot be empty." :=
  (find_motifs_motif_errors "ACGT".toList "".toList (by decide)).1 rfl

theorem iupac_values_acgt :
    ∀ p ∈ IUPAC_TO_REGEX, ∀ b ∈ p.2,
      b = 'A' ∨ b = 'C' ∨ b = 'G' ∨ b = 'T' := by decide

theorem iupac_lookup_mem :
    ∀ {l : List (Char × List Char)} {k : Char} {v : List Char},
      l.lookup k = some v → (k, v) ∈ l := by
  intro l
  induction l with
  | nil => intro k v h; cases h
  | cons p t ih =>
    intro k v h
    obtain ⟨a, b⟩ := p
    simp only [List.lookup] at h
    split at h
    · rename_i hbeq
      cases h
      have hka : k = a := eq_of_beq hbeq
      subst hka
      exact List.mem_cons_self _ _
    · exact List.mem_cons_of_mem _ (ih h)

theorem motifClasses_ok_mem : ∀ {l : List Char} {cls : List (List Char)},
    motifClasses l = .ok cls →
      ∀ x ∈ cls, ∃ c, IUPAC_TO_REGEX.lookup c = some x
  | [], cls, h => by cases h; intro x hx; cases hx
  | c :: rest, cls, h => by
    simp only [motifClasses] at h
    cases hc : IUPAC_TO_REGEX.lookup c with
    | none => rw [hc] at h; cases h
    | some v =>
      rw [hc] at h
      cases hrest : motifClasses rest with
      | error e => rw [hrest] at h; simp [Except.map] at h
      | ok tl =>
        rw [hrest] at h
        simp only [Except.map] at h
        cases h
        intro x hx
        rcases List.mem_cons.mp hx with rfl | hx2
        · exact ⟨c, hc⟩
        · exact motifClasses_ok_mem hrest x hx2

theorem matchesAt_get : ∀ {classes : List (List Char)} {t : List Char},
    matchesAt classes t = true → ∀ i, i < classes.length →
      ∃ c cls, t[i]? = some c ∧ classes[i]? = some cls ∧ cls.contains c
  | [], _, _, i, hi => by simp at hi
  | cls :: cr, [], h, i, hi => by cases h
  | cls :: cr, c :: sr, h, i, hi => by
    simp only [matchesAt, Bool.and_eq_true] at h
    match i with
    | 0 => exact ⟨c, cls, by simp, by simp, h.1⟩
    | i' + 1 =>
      obtain ⟨c2, cls2, h1, h2, h3⟩ :=
        matchesAt_get h.2 i' (by simpa using hi)
      exact ⟨c2, cls2, by simpa using h1, by simpa using h2, h3⟩

/-- C10: every IUPAC class expands only to concrete bases, so a reported
match never covers an N in the sequence — each character of a matched
window is in A/C/G/T, and on an all-N sequence every valid motif search
returns the empty list. -/
theorem find_motifs_never_match_N :
    ∀ (s m : List Char) (ps : List Nat), (∀ c ∈ s, validBase c) →
      find_motifs s m = .ok ps →
      ∃ classes, motif_to_regex m = .ok classes ∧
        classes.length = (stripEnds (m.map Char.toUpper)).length ∧
        classes ≠ [] ∧
        (∀ p ∈ ps, ∀ i, i < classes.length →
          ∃ c, s[p + i]? = some c ∧
            (c = 'A' ∨ c = 'C' ∨ c = 'G' ∨ c = 'T')) ∧
        ((∀ c ∈ s, c = 'N') → ps = []) := by
  intro s m ps hs hok
  cases hm : motif_to_regex m with
  | error e =>
    rw [find_motifs_err hs hm] at hok
    cases hok
  | ok classes =>
    rw [find_motifs_ok hs hm] at hok
    injection hok with hps
    subst hps
    have hwin : ∀ p ∈ scanPositions classes s 0, ∀ i, i < classes.length →
        ∃ c, s[p + i]? = some c ∧
          (c = 'A' ∨ c = 'C' ∨ c = 'G' ∨ c = 'T') := by
      intro p hp i hi
      have hsub := scanPositions_sub s 0 p hp
      have hmatch : matchesAt classes (s.drop p) = true := by
        simpa using hsub.2.2
      obtain ⟨c, cls, hc1, hc2, hc3⟩ := matchesAt_get hmatch i hi
      refine ⟨c, ?_, ?_⟩
      · rw [← List.getElem?_drop]
        exact hc1
      · have hclsmem : cls ∈ classes := List.getElem?_mem hc2
        obtain ⟨ch, hch⟩ :=
          motifClasses_ok_mem (motif_to_regex_ok_elim hm).2 cls hclsmem
        exact iupac_values_acgt _ (iupac_lookup_mem hch) c
          (List.mem_of_elem_eq_true hc3)
    refine ⟨classes, rfl, motifClasses_length (motif_to_regex_ok_elim hm).2,
      motif_to_regex_ok_ne_nil hm, hwin, ?_⟩
    intro hallN
    by_contra hne
    obtain ⟨p, hp⟩ := List.exists_mem_of_ne_nil _ hne
    have h0 : 0 < classes.length :=
      List.length_pos.mpr (motif_to_regex_ok_ne_nil hm)
    obtain ⟨c, hc, hacgt⟩ := hwin p hp 0 h0
    have hcs : c ∈ s := List.getElem?_mem hc
    have hcN := hallN c hcs
    subst hcN
    rcases hacgt with h | h | h | h <;> exact absurd h (by decide)

theorem find_motifs_never_match_N_witness :
    ∃ classes, motif_to_regex "ATG".toList = .ok classes ∧
      classes.length = (stripEnds ("ATG".toList.map Char.toUpper)).length ∧
      classes ≠ [] ∧
      (∀ p ∈ ([] : List Nat), ∀ i, i < classes.length →
        ∃ c, "NNNN".toList[p + i]? = some c ∧
          (c = 'A' ∨ c = 'C' ∨ c = 'G' ∨ c = 'T')) ∧
      ((∀ c ∈ "NNNN".toList, c = 'N') → ([] : List Nat) = []) :=
  find_motifs_never_match_N "NNNN".toList "ATG".toList [] (by decide) rfl

/-! ### Error ordering in translate: C7 -/

/-- C7 counterexample: on the raw input `"X"` (whose normalization fails)
with frame 4, `translate_dna` reports the invalid-frame error, not the
invalid-base error — the frame test runs before re-normalization. -/
theorem translate_dna_frame_first_cex :
    normalize_dna "X".toList = .error "DNA contains invalid bases: X" ∧
    translate_dna "X".toList 4 false =
      .error "Frame must be 1, 2, or 3." ∧
    translate_dna "X".toList 4 false ≠
      .error "DNA contains invalid bases: X" := by
  refine ⟨rfl, rfl, ?_⟩
  intro h
  have h0 : translate_dna "X".toList 4 false =
      .error "Frame must be 1, 2, or 3." := rfl
  rw [h0] at h
  injection h with h2
  exact absurd h2 (by decide)

/-- C7 (amended): `translate_dna` rejects a frame outside 1..3 first;
only for a frame in 1..3 is the sequence re-normalized, so an input with
invalid bases yields the invalid-base error exactly when the frame is
valid, and the invalid-frame error otherwise. -/
theorem translate_dna_error_order :
    ∀ (s : List Char) (f : Int) (st : Bool),
      (¬(f = 1 ∨ f = 2 ∨ f = 3) →
        translate_dna s f st = .error "Frame must be 1, 2, or 3.") ∧
      (∀ e, (f = 1 ∨ f = 2 ∨ f = 3) → normalize_dna s = .error e →
        translate_dna s f st = .error e) := by
  intro s f st
  constructor
  · intro hf
    unfold translate_dna
    rw [if_neg hf]
  · intro e hf he
    unfold translate_dna
    rw [if_pos hf, he]

theorem translate_dna_error_order_witness :
    translate_dna "acgT".toList 4 true =
      .error "Frame must be 1, 2, or 3." :=
  (translate_dna_error_order "acgT".toList 4 true).1 (by decide)

/-! ### Normalization contract: C8 -/

/-- C8: `normalize_dna` succeeds (returning the stripped, uppercased
string, the empty string included) exactly when every remaining
character is in A/C/G/T/N; otherwise it fails with a message listing
the distinct offending characters, sorted ascending and comma-joined. -/
theorem normalize_dna_spec :
    ∀ s : List Char,
      ((∀ c ∈ cleanDna s, validBase c) →
        normalize_dna s = .ok (cleanDna s)) ∧
      ((∃ c ∈ cleanDna s, ¬validBase c) →
        ∃ l : List Char, l ≠ [] ∧ List.Sorted (· < ·) l ∧
          (∀ c, c ∈ l ↔ c ∈ cleanDna s ∧ ¬validBase c) ∧
          normalize_dna s = .error ("DNA contains invalid bases: " ++
            String.intercalate ", " (l.map (fun c => String.mk [c])))) := by
  intro s
  constructor
  · intro h
    unfold normalize_dna
    rw [invalidBases_eq_nil_iff.2 h]
    rfl
  · intro h
    obtain ⟨c, hc, hcv⟩ := h
    refine ⟨invalidBases (cleanDna s),
      List.ne_nil_of_mem (mem_invalidBases.2 ⟨hc, hcv⟩), ?_, ?_, ?_⟩
    · have hsorted : List.Sorted (· ≤ ·) (invalidBases (cleanDna s)) :=
        List.sorted_insertionSort _ _
      have hnodup : (invalidBases (cleanDna s)).Nodup :=
        (List.perm_insertionSort _ _).symm.nodup (List.nodup_dedup _)
      exact hsorted.lt_of_le hnodup
    · intro x
      exact mem_invalidBases
    · unfold normalize_dna
      have hne : ¬((invalidBases (cleanDna s)).isEmpty = true) := by
        rw [List.isEmpty_iff]
        intro hnil
        have := mem_invalidBases.2 ⟨hc, hcv⟩
        rw [hnil] at this
        cases this
      rw [if_neg hne]

theorem normalize_dna_spec_witness :
    ∃ l : List Char, l ≠ [] ∧ List.Sorted (· < ·) l ∧
      (∀ c, c ∈ l ↔ c ∈ cleanDna "acg tXz".toList ∧ ¬validBase c) ∧
      normalize_dna "acg tXz".toList =
        .error ("DNA contains invalid bases: " ++
          String.intercalate ", " (l.map (fun c => String.mk [c]))) :=
  (normalize_dna_spec "acg tXz".toList).2 ⟨'X', by decide, by decide⟩

end DnaTool
